import Mathlib

/-!
Shallow embedding of `src/crypto/rsa.rs` (RSA PKCS#1 padding and public-key
block encryption) and verification of its specification.

Modelling conventions:
* Bytes (`u8`) are `Fin 256`; byte strings (`Vec<u8>`, `&[u8]`) are `List Byte`.
* `usize` arithmetic is `Nat`; subtractions the source performs are modelled
  with `checkedSub`, so that a debug-mode underflow panic becomes the error
  value `RsaPanic.subUnderflow`.
* The source signals failures by panicking; panics are modelled as values of
  `RsaPanic` carried in `Except`.
* The random source (`rand::Rng`) is a stream `r : Nat → Byte` giving the
  i-th octet drawn; the rejection-sampling loop of `Pkcs1Padding::pub_pad`,
  which diverges on an all-zero stream, is given explicit fuel, with fuel
  exhaustion modelled as `Option.none`.
* SHA-1 (`sha1::Sha1`) is an external dependency consumed as a black box; it
  is modelled as an abstract digest function parameter
  `hash : List Byte → List Byte` (the real one returns 20-octet digests,
  which theorems take as a hypothesis where it matters).
* `num_bigint::BigUint` values are `Nat`; `from_bytes_be`, `to_bytes_be`
  (zero serializes to `[0]`), `bits` and `modpow` are embedded below.
-/

/-- A `u8` value. -/
abbrev Byte := Fin 256

/-- Panics of the source, as error values: the two explicit panic messages
("message too long", "mask too long") and a debug-mode usize subtraction
underflow ("attempt to subtract with overflow"). -/
inductive RsaPanic where
  | messageTooLong
  | maskTooLong
  | subUnderflow
deriving DecidableEq, Repr

/-- Rust (debug) usize subtraction: panics, i.e. fails, on underflow. -/
def checkedSub (a b : Nat) : Option Nat :=
  if b ≤ a then some (a - b) else none

/-- Byte-wise `u8` XOR. -/
def byteXor (a b : Byte) : Byte :=
  ⟨a.val ^^^ b.val, by
    have h : a.val ^^^ b.val < 2 ^ 8 :=
      Nat.xor_lt_two_pow (lt_of_lt_of_le a.isLt (by norm_num))
        (lt_of_lt_of_le b.isLt (by norm_num))
    simpa using h⟩

/-- One iteration block of the rejection-sampling loop in
`Pkcs1Padding::pub_pad`: draw octets from the stream `r` starting at
position `pos`, discarding zeros, until a non-zero octet is found; returns it
together with the next stream position. `none` models divergence
(fuel exhausted before a non-zero draw). -/
def drawNZ (r : Nat → Byte) : Nat → Nat → Option (Byte × Nat)
  | _, 0 => none
  | pos, fuel + 1 =>
    if r pos = 0 then drawNZ r (pos + 1) fuel else some (r pos, pos + 1)

/-- Runs `n` successive rejection-sampling loops, each with `fuel`
attempts, threading the stream position. -/
def drawsNZ (r : Nat → Byte) (fuel : Nat) : Nat → Nat → Option (List Byte × Nat)
  | 0, pos => some ([], pos)
  | n + 1, pos =>
    match drawNZ r pos fuel with
    | none => none
    | some (b, pos2) =>
      match drawsNZ r fuel n pos2 with
      | none => none
      | some (bs, pos3) => some (b :: bs, pos3)

/-- Embeds `Pkcs1Padding::pub_pad` (rfc2313 block type 2). The source asserts
`input_len < k - 11` (note: strict), fills `output[0] = 0x00`,
`output[1] = 0x02`, then `ps_len = k - 3 - input_len` non-zero random octets,
a `0x00` terminator, and the message. The subtraction `k - 11` inside the
assert condition is checked; `k - 3 - input_len` cannot underflow under the
assert and is plain. -/
def pkcs1PubPad (r : Nat → Byte) (fuel : Nat) (input : List Byte) (k : Nat) :
    Option (Except RsaPanic (List Byte)) :=
  match checkedSub k 11 with
  | none => some (.error .subUnderflow)
  | some km11 =>
    if input.length < km11 then
      match drawsNZ r fuel (k - 3 - input.length) 0 with
      | none => none
      | some (ps, _) => some (.ok ((0 : Byte) :: (2 : Byte) :: (ps ++ (0 : Byte) :: input)))
    else some (.error .messageTooLong)

/-- Embeds `Pkcs1OaepPadding::HASH_LEN`: length of a SHA-1 digest in octets. -/
def HASH_LEN : Nat := 20

/-- The `ceil_div` helper nested inside `Pkcs1OaepPadding::mgf1`. -/
def ceil_div (dividend divisor : Nat) : Nat :=
  let quotient := dividend / divisor
  if dividend % divisor > 0 then quotient + 1 else quotient

/-- Embeds `BigEndian::write_u32(cs, c as u32)`: the 4-octet big-endian encoding of
`c` truncated to `u32`. -/
def be32 (c : Nat) : List Byte :=
  let u := c % 2 ^ 32
  [⟨u / 2 ^ 24 % 256, Nat.mod_lt _ (by norm_num)⟩,
   ⟨u / 2 ^ 16 % 256, Nat.mod_lt _ (by norm_num)⟩,
   ⟨u / 2 ^ 8 % 256, Nat.mod_lt _ (by norm_num)⟩,
   ⟨u % 256, Nat.mod_lt _ (by norm_num)⟩]

/-- Embeds `Pkcs1OaepPadding::mgf1`, parametric in the SHA-1 digest function: check
the `2^32 * hLen` bound, then concatenate `hash (seed || BE32 c)` for
`c = 0, ..., ceil_div len HASH_LEN - 1` and keep the first `len` octets. -/
def mgf1 (hash : List Byte → List Byte) (seed : List Byte) (len : Nat) :
    Except RsaPanic (List Byte) :=
  if len > 2 ^ 32 * HASH_LEN then
    .error .maskTooLong
  else
    .ok ((((List.range (ceil_div len HASH_LEN)).map
      (fun c => hash (seed ++ be32 c))).flatten).take len)

/-- Embeds `Pkcs1OaepPadding::pub_pad` (rfc2437 EME-OAEP with empty encoding
parameters). Each usize subtraction the source evaluates is modelled; the
length check `input.len() > k - 2*HASH_LEN - 1` evaluates `(k - 40) - 1`
first, and the padding-string length is `((k - input.len()) - 40) - 2`.
`ps` is the zero padding string with `0x01` pushed, `db = pHash ++ ps ++ M`,
and both XOR combinations truncate to the shorter operand as `zip` does. -/
def oaepPubPad (hash : List Byte → List Byte) (r : Nat → Byte)
    (input : List Byte) (k : Nat) : Except RsaPanic (List Byte) :=
  match checkedSub k (2 * HASH_LEN) with
  | none => .error .subUnderflow
  | some t =>
    match checkedSub t 1 with
    | none => .error .subUnderflow
    | some bound =>
      if input.length > bound then .error .messageTooLong
      else
        match checkedSub (k - input.length - 2 * HASH_LEN) 2 with
        | none => .error .subUnderflow
        | some psZeros =>
          let ps := List.replicate psZeros (0 : Byte) ++ [(1 : Byte)]
          let pHash := hash []
          let db := pHash ++ ps ++ input
          let seed := (List.range HASH_LEN).map r
          match mgf1 hash seed (k - HASH_LEN) with
          | .error e => .error e
          | .ok dbMask =>
            let maskedDB := List.zipWith byteXor db dbMask
            match mgf1 hash maskedDB HASH_LEN with
            | .error e => .error e
            | .ok seedMask =>
              let maskedSeed := List.zipWith byteXor seed seedMask
              .ok (maskedSeed ++ maskedDB)

/-- Embeds `BigUint::from_bytes_be`. -/
def fromBytesBE (bs : List Byte) : Nat :=
  bs.foldl (fun acc b => acc * 256 + b.val) 0

/-- Big-endian digits of `n`, most significant first, no leading zeros;
`[]` for zero. Structural recursion on fuel (any fuel at least the digit
count, in particular `n` itself, gives the exact value). -/
def toBytesBEAux : Nat → Nat → List Byte
  | 0, _ => []
  | fuel + 1, n =>
    if n = 0 then []
    else toBytesBEAux fuel (n / 256) ++ [⟨n % 256, Nat.mod_lt _ (by norm_num)⟩]

/-- Embeds `BigUint::to_bytes_be`: minimal big-endian serialization, except that
zero serializes to the single octet `0x00`. -/
def toBytesBE (n : Nat) : List Byte :=
  if n = 0 then [(0 : Byte)] else toBytesBEAux n n

/-- Bit length of `n` computed by repeated halving (`BigUint::bits`): 0 for
zero, otherwise `floor (log2 n) + 1`. Structural recursion on fuel. -/
def bitsLenAux : Nat → Nat → Nat
  | 0, _ => 0
  | fuel + 1, n => if n = 0 then 0 else bitsLenAux fuel (n / 2) + 1

/-- Embeds `BigUint::bits()`. -/
def bitsLen (n : Nat) : Nat := bitsLenAux n n

/-- The `PublicKey` struct: modulus and exponent. -/
structure PublicKey where
  modulus : Nat
  exponent : Nat

/-- Embeds `PublicKey::num_octets`: `(self.modulus.bits() + 6) >> 3`. -/
def PublicKey.num_octets (key : PublicKey) : Nat :=
  (bitsLen key.modulus + 6) >>> 3

/-- The `while rsa_bytes.len() < self.num_octets()` loop of `encrypt_block`:
insert `0x00` at the front until the length is at least `k` (a no-op on a
longer sequence; nothing is ever truncated). -/
def leftPadZeros (k : Nat) (bs : List Byte) : List Byte :=
  List.replicate (k - bs.length) (0 : Byte) ++ bs

/-- Embeds `PublicKey::encrypt_block`, generic over the padding operation exactly as
the source is generic over `impl Padding` (both `pkcs1PubPad r fuel` and a
fuel-irrelevant wrapper of `oaepPubPad hash r` fit): pad to `num_octets`
octets, read big-endian, `modpow`, serialize big-endian, restore leading
zeros. -/
def PublicKey.encrypt_block (key : PublicKey)
    (padFn : List Byte → Nat → Option (Except RsaPanic (List Byte)))
    (block : List Byte) : Option (Except RsaPanic (List Byte)) :=
  match padFn block key.num_octets with
  | none => none
  | some (.error e) => some (.error e)
  | some (.ok encBlock) =>
    some (.ok (leftPadZeros key.num_octets
      (toBytesBE (fromBytesBE encBlock ^ key.exponent % key.modulus))))

/-- MGF1 as worded by spec section 4.1: hash `seed || BE32 c` for the
`ceil (L / hLen)` (written with the standard ceiling expression) first
counters and truncate the concatenation to exactly `L` octets. -/
def mgf1Spec (hash : List Byte → List Byte) (seed : List Byte) (len : Nat) :
    List Byte :=
  (((List.range ((len + HASH_LEN - 1) / HASH_LEN)).map
    (fun c => hash (seed ++ be32 c))).flatten).take len

/-- The OAEP data block as worded by spec section 4.3 steps 1-3 (with the
padding-string length the code actually uses):
`DB = pHash || PS || 0x01 || M` with `PS` a run of
`k - len M - 2 hLen - 2` zero octets. -/
def oaepSpecDB (hash : List Byte → List Byte) (input : List Byte) (k : Nat) :
    List Byte :=
  hash [] ++ List.replicate (k - input.length - 2 * HASH_LEN - 2) (0 : Byte)
    ++ (1 : Byte) :: input

/-- The OAEP encoded message as worded by spec section 4.3 steps 4-9:
`seed` is `hLen` octets from the random stream, `dbMask = MGF1(seed, k - hLen)`,
`maskedDB = DB XOR dbMask` (truncated to `DB`'s length),
`seedMask = MGF1(maskedDB, hLen)`, `maskedSeed = seed XOR seedMask`, output
`maskedSeed || maskedDB`. -/
def oaepSpecEM (hash : List Byte → List Byte) (r : Nat → Byte)
    (input : List Byte) (k : Nat) : List Byte :=
  let db := oaepSpecDB hash input k
  let seed := (List.range HASH_LEN).map r
  let dbMask := mgf1Spec hash seed (k - HASH_LEN)
  let maskedDB := List.zipWith byteXor db dbMask
  let seedMask := mgf1Spec hash maskedDB HASH_LEN
  let maskedSeed := List.zipWith byteXor seed seedMask
  maskedSeed ++ maskedDB

/-- Spec section 4.4 step (d) taken literally: serialize `c` big-endian and
left-pad with zero octets to exactly `k` octets; impossible (`none`) when the
minimal serialization is already longer than `k`. -/
def serializeExact (k c : Nat) : Option (List Byte) :=
  if (toBytesBE c).length ≤ k then
    some (List.replicate (k - (toBytesBE c).length) (0 : Byte) ++ toBytesBE c)
  else none

/-- A digest stub with the correct SHA-1 output length, for concrete
instantiations (the structural theorems hold for every 20-octet digest
function, in particular for SHA-1 itself). -/
def zeroHash : List Byte → List Byte := fun _ => List.replicate HASH_LEN (0 : Byte)

/-- A random stream that never yields zero. -/
def oneRng : Nat → Byte := fun _ => 1

/-- A random stream of constant `0x02` octets. -/
def twoRng : Nat → Byte := fun _ => 2

/-- A random stream whose first draw is zero, exercising the rejection
sampling of `pkcs1PubPad`. -/
def rejRng : Nat → Byte := fun i => if i = 0 then 0 else 1

/-- The identity on byte strings, used as a second digest function to witness
hash-independence. -/
def idHash : List Byte → List Byte := fun x => x

/-- Helper: checked subtraction succeeds exactly on non-underflow. -/
theorem checkedSub_eq_some {a b : Nat} (h : b ≤ a) : checkedSub a b = some (a - b) := by
  simp [checkedSub, h]

/-- Helper: checked subtraction fails exactly on underflow. -/
theorem checkedSub_eq_none {a b : Nat} (h : a < b) : checkedSub a b = none := by
  simp [checkedSub]
  omega

/-- Helper: everything the rejection-sampling loop returns is non-zero. -/
theorem drawNZ_ne_zero (r : Nat → Byte) :
    ∀ pos fuel b pos2, drawNZ r pos fuel = some (b, pos2) → b ≠ 0 := by
  intro pos fuel
  induction fuel generalizing pos with
  | zero => intro b pos2 h; simp [drawNZ] at h
  | succ fuel ih =>
    intro b pos2 h
    rw [drawNZ] at h
    by_cases h0 : r pos = 0
    · rw [if_pos h0] at h
      exact ih (pos + 1) b pos2 h
    · rw [if_neg h0] at h
      simp at h
      rcases h with ⟨h1, _⟩
      rw [← h1]
      exact h0

/-- Helper: a successful run of `n` rejection-sampling loops yields exactly
`n` octets, all non-zero. -/
theorem drawsNZ_spec (r : Nat → Byte) (fuel : Nat) :
    ∀ n pos ps pos2, drawsNZ r fuel n pos = some (ps, pos2) →
      ps.length = n ∧ ∀ b ∈ ps, b ≠ 0 := by
  intro n
  induction n with
  | zero =>
    intro pos ps pos2 h
    simp [drawsNZ] at h
    rcases h with ⟨h1, _⟩
    subst h1
    simp
  | succ n ih =>
    intro pos ps pos2 h
    rw [drawsNZ] at h
    cases h1 : drawNZ r pos fuel with
    | none => rw [h1] at h; simp at h
    | some v =>
      obtain ⟨b, posb⟩ := v
      rw [h1] at h
      simp only [] at h
      cases h2 : drawsNZ r fuel n posb with
      | none => rw [h2] at h; simp at h
      | some w =>
        obtain ⟨bs, pos3⟩ := w
        rw [h2] at h
        simp at h
        rcases h with ⟨hps, _⟩
        have hrec := ih posb bs pos3 h2
        constructor
        · rw [← hps]
          simp [hrec.1]
        · intro x hx
          rw [← hps] at hx
          rcases List.mem_cons.mp hx with hx | hx
          · rw [hx]
            exact drawNZ_ne_zero r pos fuel b posb h1
          · exact hrec.2 x hx

/-- Helper: the ceiling-division helper of the source agrees with the
standard ceiling expression at the SHA-1 digest length. -/
theorem ceil_div_hashLen (n : Nat) :
    ceil_div n HASH_LEN = (n + HASH_LEN - 1) / HASH_LEN := by
  simp only [ceil_div, HASH_LEN]
  split
  · omega
  · omega

/-- Helper: under the counter-space bound the source MGF1 computes the
spec-worded MGF1. -/
theorem mgf1_eq_spec (hash : List Byte → List Byte) (seed : List Byte)
    (len : Nat) (hBound : len ≤ 2 ^ 32 * HASH_LEN) :
    mgf1 hash seed len = .ok (mgf1Spec hash seed len) := by
  rw [mgf1, if_neg (by omega), mgf1Spec, ceil_div_hashLen]

/-- Helper: for a 20-octet digest function the spec MGF1 mask has exactly
the requested length. -/
theorem mgf1Spec_length (hash : List Byte → List Byte) (seed : List Byte)
    (len : Nat) (hHash : ∀ x, (hash x).length = HASH_LEN) :
    (mgf1Spec hash seed len).length = len := by
  rw [mgf1Spec, List.length_take, List.length_flatten, List.map_map]
  have hconst : (List.range ((len + HASH_LEN - 1) / HASH_LEN)).map
      (List.length ∘ fun c => hash (seed ++ be32 c)) =
      (List.range ((len + HASH_LEN - 1) / HASH_LEN)).map (fun _ => HASH_LEN) :=
    List.map_congr_left (fun x _ => hHash (seed ++ be32 x))
  rw [hconst, List.map_const', List.length_range, List.sum_replicate, smul_eq_mul]
  simp only [HASH_LEN]
  omega

/-- Helper: a number below `256 ^ k` has at most `k` big-endian digits. -/
theorem toBytesBEAux_length_le :
    ∀ fuel n k, n ≤ fuel → n < 256 ^ k → (toBytesBEAux fuel n).length ≤ k := by
  intro fuel
  induction fuel with
  | zero =>
    intro n k hn _
    have : n = 0 := by omega
    simp [this, toBytesBEAux]
  | succ fuel ih =>
    intro n k hn hlt
    by_cases h0 : n = 0
    · simp [toBytesBEAux, h0]
    · rw [toBytesBEAux, if_neg h0]
      cases k with
      | zero =>
        simp at hlt
        omega
      | succ k =>
        have hdivfuel : n / 256 ≤ fuel := by
          have := Nat.div_lt_self (Nat.pos_of_ne_zero h0) (by norm_num : 1 < 256)
          omega
        have hdivlt : n / 256 < 256 ^ k := by
          rw [Nat.div_lt_iff_lt_mul (by norm_num : 0 < 256)]
          calc n < 256 ^ (k + 1) := hlt
            _ = 256 ^ k * 256 := by rw [Nat.pow_succ]
        have := ih (n / 256) k hdivfuel hdivlt
        simp [List.length_append]
        omega

/-- Helper: a number at least `256 ^ k` has more than `k` big-endian digits. -/
theorem toBytesBEAux_length_ge :
    ∀ fuel n k, n ≤ fuel → 256 ^ k ≤ n → k + 1 ≤ (toBytesBEAux fuel n).length := by
  intro fuel
  induction fuel with
  | zero =>
    intro n k hn hge
    have : 0 < 256 ^ k := Nat.pos_pow_of_pos k (by norm_num)
    omega
  | succ fuel ih =>
    intro n k hn hge
    have h0 : n ≠ 0 := by
      have : 0 < 256 ^ k := Nat.pos_pow_of_pos k (by norm_num)
      omega
    rw [toBytesBEAux, if_neg h0]
    cases k with
    | zero => simp
    | succ k =>
      have hdivfuel : n / 256 ≤ fuel := by
        have := Nat.div_lt_self (Nat.pos_of_ne_zero h0) (by norm_num : 1 < 256)
        omega
      have hdivge : 256 ^ k ≤ n / 256 := by
        rw [Nat.le_div_iff_mul_le (by norm_num : 0 < 256)]
        calc 256 ^ k * 256 = 256 ^ (k + 1) := by rw [Nat.pow_succ]
          _ ≤ n := hge
      have := ih (n / 256) k hdivfuel hdivge
      simp [List.length_append]
      omega

/-- Helper: the big-endian serialization fits in `k ≥ 1` octets exactly when
the value is below `256 ^ k`. -/
theorem toBytesBE_length_le_iff (n k : Nat) (hk : 1 ≤ k) :
    (toBytesBE n).length ≤ k ↔ n < 256 ^ k := by
  by_cases h0 : n = 0
  · subst h0
    have hpos : 0 < 256 ^ k := Nat.pos_pow_of_pos k (by norm_num)
    simp only [toBytesBE, if_pos rfl, List.length_singleton]
    constructor
    · intro _
      exact hpos
    · intro _
      exact hk
  · rw [toBytesBE, if_neg h0]
    constructor
    · intro h
      by_contra hc
      push_neg at hc
      have := toBytesBEAux_length_ge n n k le_rfl hc
      omega
    · intro h
      exact toBytesBEAux_length_le n n k le_rfl h

/-- Helper: length of the restored-leading-zeros serialization. -/
theorem leftPadZeros_length (k : Nat) (bs : List Byte) :
    (leftPadZeros k bs).length = max k bs.length := by
  simp [leftPadZeros]
  omega

/-- Helper: checked subtraction characterized. -/
theorem checkedSub_some_iff {a b c : Nat} :
    checkedSub a b = some c ↔ b ≤ a ∧ c = a - b := by
  rw [checkedSub]
  by_cases hba : b ≤ a
  · rw [if_pos hba]
    simp [hba]
    constructor
    · intro h
      exact h.symm
    · intro h
      exact h.symm
  · rw [if_neg hba]
    simp [hba]

/-- Claim C2 (amended): for a positive modulus, `num_octets` computes
`(bits + 6) / 8`, which equals `ceil (bits / 8)` at every bit length not
congruent to 1 mod 8 — in particular at exact byte-aligned bit lengths such
as 1024 — but falls one octet short of the ceiling whenever the bit length
is congruent to 1 mod 8. -/
theorem num_octets_amended (key : PublicKey) (hpos : 0 < key.modulus) :
    (bitsLen key.modulus % 8 ≠ 1 →
      key.num_octets = (bitsLen key.modulus + 7) / 8)
    ∧ (bitsLen key.modulus % 8 = 1 →
      key.num_octets + 1 = (bitsLen key.modulus + 7) / 8) := by
  have h : key.num_octets = (bitsLen key.modulus + 6) / 8 := by
    rw [PublicKey.num_octets, Nat.shiftRight_eq_div_pow]
    try norm_num
  constructor
  · intro hne
    rw [h]
    omega
  · intro heq
    rw [h]
    omega

set_option maxRecDepth 8192 in
/-- Claim C2 witness: a byte-aligned 1024-bit modulus has 128 octets, in
agreement with the ceiling. -/
theorem num_octets_amended_witness :
    (0 : Nat) < 2 ^ 1023
    ∧ (PublicKey.mk (2 ^ 1023) 65537).num_octets = (bitsLen (2 ^ 1023) + 7) / 8 :=
  ⟨Nat.pos_pow_of_pos 1023 (by norm_num),
   (num_octets_amended (PublicKey.mk (2 ^ 1023) 65537)
     (Nat.pos_pow_of_pos 1023 (by norm_num))).1 (by decide)⟩

/-- Claim C2 counterexample: the modulus 256 is positive with bit length 9
(congruent to 1 mod 8); `num_octets` returns 1 although
`ceil (9 / 8) = 2`. -/
theorem num_octets_cex :
    (PublicKey.mk 256 3).num_octets = 1
    ∧ (bitsLen (PublicKey.mk 256 3).modulus + 7) / 8 = 2 :=
  ⟨rfl, rfl⟩

/-- Claim C3 (code bug witness): at the exact boundary `len = k - 11`
(here `k = 12`, `len = 1`) the source assert `input_len < k - 11` fires —
the call fails with the message-too-long panic although the assert's own
message (and rfc2313) allow data of up to `k - 11` octets. -/
theorem pkcs1_boundary_rejected :
    pkcs1PubPad oneRng 1 [97] 12 = some (.error .messageTooLong) := rfl

/-- Claim C9: `mgf1` fails with the mask-too-long panic whenever the
requested length exceeds `2^32 * hLen`, and the check precedes all hashing:
the result is identical for every digest function and seed, so no partial
mask is ever produced. -/
theorem mgf1_mask_too_long (hash hash2 : List Byte → List Byte)
    (seed seed2 : List Byte) (len : Nat) (h : 2 ^ 32 * HASH_LEN < len) :
    mgf1 hash seed len = .error .maskTooLong
    ∧ mgf1 hash seed len = mgf1 hash2 seed2 len := by
  constructor
  · rw [mgf1, if_pos h]
  · rw [mgf1, if_pos h, mgf1, if_pos h]

/-- Claim C9 witness: one octet past the bound, with two different digest
functions. -/
theorem mgf1_mask_too_long_witness :
    mgf1 zeroHash [1, 2, 3] (2 ^ 32 * HASH_LEN + 1) = .error .maskTooLong
    ∧ mgf1 zeroHash [1, 2, 3] (2 ^ 32 * HASH_LEN + 1) =
      mgf1 idHash [] (2 ^ 32 * HASH_LEN + 1) :=
  mgf1_mask_too_long zeroHash idHash [1, 2, 3] [] (2 ^ 32 * HASH_LEN + 1)
    (Nat.lt_succ_self _)

/-- Claim C10: the usize length arithmetic in both padding operations is not
total. For `k < 11` the PKCS1-v1.5 precondition expression `k - 11`
underflows; for `k < 2*hLen + 1` the OAEP precondition expression
`k - 2*hLen - 1` underflows; and for a message at the exact accepted OAEP
boundary `len = k - 2*hLen - 1` the padding-string length
`k - len - 2*hLen - 2` underflows. Each call aborts with the arithmetic
failure — not `MessageTooLong` — and returns no block. -/
theorem usize_underflow_aborts :
    (∀ (r : Nat → Byte) (fuel k : Nat) (input : List Byte), k < 11 →
      pkcs1PubPad r fuel input k = some (.error .subUnderflow))
    ∧ (∀ (hash : List Byte → List Byte) (r : Nat → Byte) (k : Nat)
        (input : List Byte), k < 2 * HASH_LEN + 1 →
        oaepPubPad hash r input k = .error .subUnderflow)
    ∧ (∀ (hash : List Byte → List Byte) (r : Nat → Byte) (k : Nat)
        (input : List Byte), 2 * HASH_LEN + 1 ≤ k →
        input.length = k - 2 * HASH_LEN - 1 →
        oaepPubPad hash r input k = .error .subUnderflow) := by
  have h20 : HASH_LEN = 20 := rfl
  refine ⟨?_, ?_, ?_⟩
  · intro r fuel k input hk
    simp only [pkcs1PubPad, checkedSub_eq_none hk]
  · intro hash r k input hk
    by_cases h40 : 2 * HASH_LEN ≤ k
    · simp only [oaepPubPad, checkedSub_eq_some h40,
        checkedSub_eq_none (show k - 2 * HASH_LEN < 1 by omega)]
    · simp only [oaepPubPad, checkedSub_eq_none (show k < 2 * HASH_LEN by omega)]
  · intro hash r k input hk hlen
    simp only [oaepPubPad, checkedSub_eq_some (show 2 * HASH_LEN ≤ k by omega),
      checkedSub_eq_some (show 1 ≤ k - 2 * HASH_LEN by omega),
      if_neg (show ¬ input.length > k - 2 * HASH_LEN - 1 by omega),
      checkedSub_eq_none (show k - input.length - 2 * HASH_LEN < 2 by omega)]

/-- Claim C10 witness: concrete aborts at k = 5 (PKCS1-v1.5), k = 30 (OAEP
precondition) and k = 41 with the empty message (OAEP boundary). -/
theorem usize_underflow_aborts_witness :
    pkcs1PubPad oneRng 1 [] 5 = some (.error .subUnderflow)
    ∧ oaepPubPad zeroHash oneRng [] 30 = .error .subUnderflow
    ∧ oaepPubPad zeroHash oneRng [] 41 = .error .subUnderflow :=
  ⟨usize_underflow_aborts.1 oneRng 1 5 [] (by decide),
   usize_underflow_aborts.2.1 zeroHash oneRng 30 [] (by decide),
   usize_underflow_aborts.2.2 zeroHash oneRng 41 [] (by decide) (by decide)⟩

/-- Claim C7: under the counter-space bound, MGF1 is the deterministic pure
function of `(seed, len)` that concatenates `hash (seed || BE32 c)` for
successive counters and truncates to `len` octets: it equals the
spec-worded mask, the mask has exactly the requested length for a 20-octet
digest function, and the number of hashed counter values is exactly the
ceiling of `len / hLen`. -/
theorem mgf1_contract (hash : List Byte → List Byte) (seed : List Byte)
    (len : Nat) (hHash : ∀ x, (hash x).length = HASH_LEN)
    (hBound : len ≤ 2 ^ 32 * HASH_LEN) :
    mgf1 hash seed len = .ok (mgf1Spec hash seed len)
    ∧ (mgf1Spec hash seed len).length = len
    ∧ ceil_div len HASH_LEN = (len + HASH_LEN - 1) / HASH_LEN :=
  ⟨mgf1_eq_spec hash seed len hBound, mgf1Spec_length hash seed len hHash,
   ceil_div_hashLen len⟩

/-- Claim C7 witness: a 45-octet mask from a 2-octet seed (three counter
values hashed). -/
theorem mgf1_contract_witness :
    mgf1 zeroHash [3, 4] 45 = .ok (mgf1Spec zeroHash [3, 4] 45)
    ∧ (mgf1Spec zeroHash [3, 4] 45).length = 45
    ∧ ceil_div 45 HASH_LEN = (45 + HASH_LEN - 1) / HASH_LEN :=
  mgf1_contract zeroHash [3, 4] 45 (fun _ => rfl) (by decide)

/-- Claim C4: every block that `Pkcs1Padding::pub_pad` accepts and returns
has length exactly `k`; it starts with the octets `0x00 0x02`, continues
with `ps_len = k - 3 - len` non-zero octets (zero draws having been
discarded and redrawn by the rejection-sampling loop), carries the `0x00`
terminator at position `2 + ps_len`, and ends with the message unmodified. -/
theorem pkcs1_pad_structure (r : Nat → Byte) (fuel : Nat) (input : List Byte)
    (k : Nat) (out : List Byte)
    (h : pkcs1PubPad r fuel input k = some (.ok out)) :
    out.length = k
    ∧ out.take 2 = [0, 2]
    ∧ (∀ b ∈ (out.drop 2).take (k - 3 - input.length), b ≠ 0)
    ∧ (out.drop (2 + (k - 3 - input.length))).take 1 = [0]
    ∧ out.drop (k - input.length) = input := by
  by_cases hk : 11 ≤ k
  · by_cases hlt : input.length < k - 11
    · simp only [pkcs1PubPad, checkedSub_eq_some hk, if_pos hlt] at h
      cases hdraw : drawsNZ r fuel (k - 3 - input.length) 0 with
      | none => rw [hdraw] at h; simp at h
      | some v =>
        obtain ⟨ps, pos2⟩ := v
        rw [hdraw] at h
        simp only [] at h
        simp only [Option.some.injEq, Except.ok.injEq] at h
        obtain ⟨hps, hnz⟩ :=
          drawsNZ_spec r fuel (k - 3 - input.length) 0 ps pos2 hdraw
        subst h
        refine ⟨?_, ?_, ?_, ?_, ?_⟩
        · simp [hps]
          omega
        · rfl
        · intro b hb
          have hdrop : (((0 : Byte) :: 2 :: (ps ++ 0 :: input)).drop 2) =
              ps ++ 0 :: input := rfl
          rw [hdrop, List.take_left' hps] at hb
          exact hnz b hb
        · have hform : ((0 : Byte) :: 2 :: (ps ++ 0 :: input)) =
              (((0 : Byte) :: 2 :: ps) ++ (0 :: input)) := by simp
          rw [hform, List.drop_left' (by simp [hps]; omega)]
          rfl
        · have hform : ((0 : Byte) :: 2 :: (ps ++ 0 :: input)) =
              ((((0 : Byte) :: 2 :: ps) ++ [0]) ++ input) := by simp
          rw [hform, List.drop_left' (by simp [hps]; omega)]
    · simp only [pkcs1PubPad, checkedSub_eq_some hk, if_neg hlt] at h
      simp at h
  · simp only [pkcs1PubPad, checkedSub_eq_none (show k < 11 by omega)] at h
    simp at h

/-- Claim C4 witness: `k = 14` with a 2-octet message over a stream whose
first draw is zero (one rejection occurs). -/
theorem pkcs1_pad_structure_witness :
    pkcs1PubPad rejRng 2 [5, 6] 14 =
      some (.ok [0, 2, 1, 1, 1, 1, 1, 1, 1, 1, 1, 0, 5, 6])
    ∧ ([0, 2, 1, 1, 1, 1, 1, 1, 1, 1, 1, 0, 5, 6] : List Byte).length = 14 :=
  ⟨rfl,
   (pkcs1_pad_structure rejRng 2 [5, 6] 14
     [0, 2, 1, 1, 1, 1, 1, 1, 1, 1, 1, 0, 5, 6] rfl).1⟩

/-- Helper: an MGF1 request of one digest length is always within bounds. -/
theorem mgf1_hashLen_ok (hash : List Byte → List Byte) (seed : List Byte) :
    mgf1 hash seed HASH_LEN = .ok (mgf1Spec hash seed HASH_LEN) :=
  mgf1_eq_spec hash seed HASH_LEN (by norm_num [HASH_LEN])

/-- Claim C8 (amended): for `k ≥ 2*hLen + 1` (so the precondition expression
itself does not underflow; below that see C10) and `k - hLen` within the
MGF1 counter bound, OAEP padding fails with `MessageTooLong` exactly when
`len > k - 2*hLen - 1`; but at the exact boundary `len = k - 2*hLen - 1` the
call aborts with the arithmetic underflow instead of succeeding, and it
returns an encoded block precisely when `len ≤ k - 2*hLen - 2`. -/
theorem oaep_too_long_amended (hash : List Byte → List Byte) (r : Nat → Byte)
    (input : List Byte) (k : Nat) (hk : 2 * HASH_LEN + 1 ≤ k)
    (hMask : k - HASH_LEN ≤ 2 ^ 32 * HASH_LEN) :
    (oaepPubPad hash r input k = .error .messageTooLong ↔
      k - 2 * HASH_LEN - 1 < input.length)
    ∧ (input.length = k - 2 * HASH_LEN - 1 →
      oaepPubPad hash r input k = .error .subUnderflow)
    ∧ (input.length + 2 * HASH_LEN + 2 ≤ k →
      (oaepPubPad hash r input k).isOk = true) := by
  have e1 := checkedSub_eq_some (show 2 * HASH_LEN ≤ k by omega)
  have e2 := checkedSub_eq_some (show 1 ≤ k - 2 * HASH_LEN by omega)
  have hUf : input.length = k - 2 * HASH_LEN - 1 →
      oaepPubPad hash r input k = .error .subUnderflow := by
    intro hlen
    simp only [oaepPubPad, e1, e2,
      if_neg (show ¬ input.length > k - 2 * HASH_LEN - 1 by omega),
      checkedSub_eq_none (show k - input.length - 2 * HASH_LEN < 2 by omega)]
  have hOk : input.length + 2 * HASH_LEN + 2 ≤ k →
      ∃ out, oaepPubPad hash r input k = .ok out := by
    intro hlen
    simp only [oaepPubPad, e1, e2,
      if_neg (show ¬ input.length > k - 2 * HASH_LEN - 1 by omega),
      checkedSub_eq_some (show 2 ≤ k - input.length - 2 * HASH_LEN by omega),
      mgf1_eq_spec hash ((List.range HASH_LEN).map r) (k - HASH_LEN) hMask,
      mgf1_hashLen_ok]
    exact ⟨_, rfl⟩
  refine ⟨⟨?_, ?_⟩, hUf, ?_⟩
  · intro hres
    by_contra hc
    push_neg at hc
    by_cases hb : input.length = k - 2 * HASH_LEN - 1
    · rw [hUf hb] at hres
      simp at hres
    · obtain ⟨out, hout⟩ := hOk (by omega)
      rw [hout] at hres
      simp at hres
  · intro hgt
    simp only [oaepPubPad, e1, e2, if_pos hgt]
  · intro hlen
    obtain ⟨out, hout⟩ := hOk hlen
    rw [hout]
    rfl

/-- Claim C8 witness: at `k = 100`, a 60-octet message is rejected as too
long, a 59-octet message hits the boundary underflow, and the empty message
is padded successfully. -/
theorem oaep_too_long_amended_witness :
    oaepPubPad zeroHash oneRng (List.replicate 60 1) 100 =
      .error .messageTooLong
    ∧ oaepPubPad zeroHash oneRng (List.replicate 59 1) 100 =
      .error .subUnderflow
    ∧ (oaepPubPad zeroHash oneRng [] 100).isOk = true :=
  ⟨(oaep_too_long_amended zeroHash oneRng (List.replicate 60 1) 100
      (by decide) (by decide)).1.mpr (by decide),
   (oaep_too_long_amended zeroHash oneRng (List.replicate 59 1) 100
      (by decide) (by decide)).2.1 (by decide),
   (oaep_too_long_amended zeroHash oneRng [] 100
      (by decide) (by decide)).2.2 (by decide)⟩

/-- Claim C8 counterexample: at `k = 42` a 1-octet message satisfies the
claim's acceptance condition `len ≤ k - 2*hLen - 1`, yet the call does not
return an encoded block — it aborts with the subtraction underflow. -/
theorem oaep_boundary_not_ok :
    oaepPubPad zeroHash oneRng [7] 42 = .error .subUnderflow
    ∧ ([7] : List Byte).length ≤ 42 - 2 * HASH_LEN - 1 :=
  ⟨rfl, by decide⟩

/-- Claim C1 (amended): for `len ≤ k - 2*hLen - 2` (at the claim's stated
bound `k - 2*hLen - 1` the call aborts instead, see C10) and `k - hLen`
within the MGF1 counter bound, OAEP padding returns
`maskedSeed || maskedDB` built exactly as the spec describes, except one
octet short of the claim at two places: `DB = pHash || PS || 0x01 || M` has
length `k - hLen - 1` (not `k - hLen`), so `maskedDB = DB XOR dbMask` is the
XOR truncated to `DB`'s length although `dbMask = MGF1(seed, k - hLen)` has
the full `k - hLen` octets, and the output length is exactly `k - 1`,
not `k`. `PS` has `k - len - 2*hLen - 2` zero octets, `seed` is the `hLen`
octets drawn from the random source, `seedMask = MGF1(maskedDB, hLen)` and
`maskedSeed = seed XOR seedMask`, as claimed. -/
theorem oaep_pad_structure (hash : List Byte → List Byte) (r : Nat → Byte)
    (input : List Byte) (k : Nat)
    (hHash : ∀ x, (hash x).length = HASH_LEN)
    (hLenM : input.length + 2 * HASH_LEN + 2 ≤ k)
    (hMask : k - HASH_LEN ≤ 2 ^ 32 * HASH_LEN) :
    oaepPubPad hash r input k = .ok (oaepSpecEM hash r input k)
    ∧ (oaepSpecEM hash r input k).length = k - 1
    ∧ (oaepSpecDB hash input k).length = k - HASH_LEN - 1
    ∧ (mgf1Spec hash ((List.range HASH_LEN).map r) (k - HASH_LEN)).length
        = k - HASH_LEN := by
  have h20 : HASH_LEN = 20 := rfl
  have hdb : (oaepSpecDB hash input k).length = k - HASH_LEN - 1 := by
    simp [oaepSpecDB, hHash]
    omega
  have hm1 : (mgf1Spec hash ((List.range HASH_LEN).map r)
      (k - HASH_LEN)).length = k - HASH_LEN :=
    mgf1Spec_length hash _ _ hHash
  have hm2 : ∀ s, (mgf1Spec hash s HASH_LEN).length = HASH_LEN :=
    fun s => mgf1Spec_length hash s HASH_LEN hHash
  refine ⟨?_, ?_, hdb, hm1⟩
  · simp only [oaepPubPad,
      checkedSub_eq_some (show 2 * HASH_LEN ≤ k by omega),
      checkedSub_eq_some (show 1 ≤ k - 2 * HASH_LEN by omega),
      if_neg (show ¬ input.length > k - 2 * HASH_LEN - 1 by omega),
      checkedSub_eq_some (show 2 ≤ k - input.length - 2 * HASH_LEN by omega),
      mgf1_eq_spec hash ((List.range HASH_LEN).map r) (k - HASH_LEN) hMask,
      mgf1_hashLen_ok, oaepSpecEM, oaepSpecDB]
    simp [List.append_assoc]
  · simp only [oaepSpecEM, oaepSpecDB, List.length_append, List.length_zipWith,
      hm2, List.length_map, List.length_range, hm1, hHash,
      List.length_replicate, List.length_cons]
    omega

/-- Claim C1 witness: `k = 43` with the empty message; the encoded block has
42 octets, the data block 22 octets, the db mask 23 octets. -/
theorem oaep_pad_structure_witness :
    oaepPubPad zeroHash oneRng [] 43 = .ok (oaepSpecEM zeroHash oneRng [] 43)
    ∧ (oaepSpecEM zeroHash oneRng [] 43).length = 42
    ∧ (oaepSpecDB zeroHash [] 43).length = 22
    ∧ (mgf1Spec zeroHash ((List.range HASH_LEN).map oneRng)
        (43 - HASH_LEN)).length = 23 :=
  oaep_pad_structure zeroHash oneRng [] 43 (fun _ => rfl) (by decide) (by decide)

/-- Claim C1 counterexample: at `k = 43` (empty message, a 20-octet digest
stub, a non-zero random stream) the encoded block has 42 octets, not the 43
the claim requires. -/
theorem oaep_pad_length_cex :
    (oaepPubPad zeroHash oneRng [] 43).map List.length = .ok 42
    ∧ (42 : Nat) ≠ 43 :=
  ⟨rfl, by decide⟩

/-- Claim C5 (amended): whenever the padding step succeeds, the ciphertext
length is `max num_octets (length of the minimal big-endian serialization
of c)` where `c = m ^ exponent mod modulus`: leading zero octets are
restored on the left (so the length is exactly `num_octets` precisely when
`c < 256 ^ num_octets`, which always holds when the modulus bit length is
not congruent to 1 mod 8), but a serialization longer than `num_octets` is
returned untruncated, so the output can exceed `num_octets`. -/
theorem encrypt_block_length (key : PublicKey)
    (padFn : List Byte → Nat → Option (Except RsaPanic (List Byte)))
    (block encBlock : List Byte)
    (h : padFn block key.num_octets = some (.ok encBlock))
    (hk : 1 ≤ key.num_octets) :
    (key.encrypt_block padFn block).map (Except.map List.length)
      = some (.ok (max key.num_octets
          (toBytesBE (fromBytesBE encBlock ^ key.exponent
            % key.modulus)).length))
    ∧ ((toBytesBE (fromBytesBE encBlock ^ key.exponent
          % key.modulus)).length ≤ key.num_octets
        ↔ fromBytesBE encBlock ^ key.exponent % key.modulus
          < 256 ^ key.num_octets) := by
  constructor
  · simp only [PublicKey.encrypt_block, h, Option.map, Except.map,
      leftPadZeros_length]
  · exact toBytesBE_length_le_iff _ _ hk

set_option maxRecDepth 100000 in
/-- Claim C5 witness: a 97-bit modulus with exponent 1; the residue fits in
12 octets and the ciphertext is left-padded back to `num_octets = 12`. -/
theorem encrypt_block_length_witness :
    ((PublicKey.mk (2 ^ 96 + 3) 1).encrypt_block
        (pkcs1PubPad oneRng 1) []).map (Except.map List.length)
      = some (.ok (max (PublicKey.mk (2 ^ 96 + 3) 1).num_octets
          (toBytesBE (fromBytesBE [0, 2, 1, 1, 1, 1, 1, 1, 1, 1, 1, 0] ^ 1
            % (2 ^ 96 + 3))).length))
    ∧ ((toBytesBE (fromBytesBE [0, 2, 1, 1, 1, 1, 1, 1, 1, 1, 1, 0] ^ 1
          % (2 ^ 96 + 3))).length ≤ (PublicKey.mk (2 ^ 96 + 3) 1).num_octets
        ↔ fromBytesBE [0, 2, 1, 1, 1, 1, 1, 1, 1, 1, 1, 0] ^ 1 % (2 ^ 96 + 3)
          < 256 ^ (PublicKey.mk (2 ^ 96 + 3) 1).num_octets) :=
  encrypt_block_length (PublicKey.mk (2 ^ 96 + 3) 1) (pkcs1PubPad oneRng 1) []
    [0, 2, 1, 1, 1, 1, 1, 1, 1, 1, 1, 0] (by rfl) (by decide)

set_option maxRecDepth 100000 in
/-- Claim C5 counterexample: for the 97-bit modulus 2^96 + 2^95 + 1 with
exponent 2 (num_octets = 12) and the empty message under PKCS1-v1.5 padding,
the residue needs 13 octets and the ciphertext has length 13, not 12. -/
theorem encrypt_block_length_cex :
    ((PublicKey.mk (2 ^ 96 + 2 ^ 95 + 1) 2).encrypt_block
        (pkcs1PubPad oneRng 1) []).map (Except.map List.length)
      = some (.ok 13)
    ∧ (PublicKey.mk (2 ^ 96 + 2 ^ 95 + 1) 2).num_octets = 12 :=
  ⟨rfl, rfl⟩

/-- Claim C6 (amended): `encrypt_block` is exactly the composition: pad to
`num_octets` octets, read the block big-endian, raise to the exponent modulo
the modulus, serialize big-endian and left-pad with zeros (never truncating,
so only to at least `num_octets` octets, not to exactly that length);
padding failures and divergence propagate unchanged, and the result agrees
with the spec step (d) taken literally ("exactly num_octets octets")
precisely when `c < 256 ^ num_octets`. -/
theorem encrypt_block_refines_spec :
    (∀ (key : PublicKey)
        (padFn : List Byte → Nat → Option (Except RsaPanic (List Byte)))
        (block : List Byte) (e : RsaPanic),
      padFn block key.num_octets = some (.error e) →
      key.encrypt_block padFn block = some (.error e))
    ∧ (∀ (key : PublicKey)
        (padFn : List Byte → Nat → Option (Except RsaPanic (List Byte)))
        (block : List Byte),
      padFn block key.num_octets = none →
      key.encrypt_block padFn block = none)
    ∧ (∀ (key : PublicKey)
        (padFn : List Byte → Nat → Option (Except RsaPanic (List Byte)))
        (block encBlock : List Byte),
      padFn block key.num_octets = some (.ok encBlock) →
      1 ≤ key.num_octets →
      fromBytesBE encBlock ^ key.exponent % key.modulus
        < 256 ^ key.num_octets →
      key.encrypt_block padFn block =
        (serializeExact key.num_octets
          (fromBytesBE encBlock ^ key.exponent % key.modulus)).map
          Except.ok) := by
  refine ⟨?_, ?_, ?_⟩
  · intro key padFn block e h
    simp only [PublicKey.encrypt_block, h]
  · intro key padFn block h
    simp only [PublicKey.encrypt_block, h]
  · intro key padFn block encBlock h hk hc
    simp only [PublicKey.encrypt_block, h, serializeExact,
      if_pos ((toBytesBE_length_le_iff _ _ hk).mpr hc), Option.map,
      leftPadZeros]

set_option maxRecDepth 100000 in
/-- Claim C6 witness: a 97-bit modulus with exponent 1 under PKCS1-v1.5
padding with a constant-2 stream; the code output equals the spec
composition. -/
theorem encrypt_block_refines_spec_witness :
    (PublicKey.mk (2 ^ 96 + 7) 1).encrypt_block (pkcs1PubPad twoRng 1) [] =
      (serializeExact (PublicKey.mk (2 ^ 96 + 7) 1).num_octets
        (fromBytesBE [0, 2, 2, 2, 2, 2, 2, 2, 2, 2, 2, 0] ^ 1
          % (2 ^ 96 + 7))).map Except.ok :=
  encrypt_block_refines_spec.2.2 (PublicKey.mk (2 ^ 96 + 7) 1)
    (pkcs1PubPad twoRng 1) [] [0, 2, 2, 2, 2, 2, 2, 2, 2, 2, 2, 0]
    (by rfl) (by decide) (by decide)

set_option maxRecDepth 100000 in
/-- Claim C6 counterexample: for the 97-bit modulus 2^96 + 2^95 + 2 with
exponent 3 and the empty message under PKCS1-v1.5 padding, the spec's
serialize-to-exactly-num_octets step is impossible (the residue needs 13
octets), while the code returns a 13-octet ciphertext. -/
theorem encrypt_block_spec_cex :
    ((PublicKey.mk (2 ^ 96 + 2 ^ 95 + 2) 3).encrypt_block
        (pkcs1PubPad twoRng 1) []).map (Except.map List.length)
      = some (.ok 13)
    ∧ serializeExact (PublicKey.mk (2 ^ 96 + 2 ^ 95 + 2) 3).num_octets
        (fromBytesBE [0, 2, 2, 2, 2, 2, 2, 2, 2, 2, 2, 0] ^ 3
          % (2 ^ 96 + 2 ^ 95 + 2)) = none :=
  ⟨rfl, rfl⟩
